import Mathlib

/-!
Verification development for the Linguist Helper repository.

The repository contains two variants of a Thai text-extraction app:
* the simpler variant `src/linguist_assistant/app.py`, whose extractor
  `get_content_universal` returns a plain string, and
* the universal variant
  `src/linguist_assistant/Linguist_Assistant/linguist_assistant/app.py`,
  whose extractor returns a pair of extracted text and a provenance tag.

The development below is a shallow embedding of the text pipeline
(`clean_text_final`, `tokenize_text`, `get_content_universal` in both
variants).  HTML documents are modelled as trees of element and text nodes
mirroring the BeautifulSoup document object; `requests.get` together with
`raise_for_status` is modelled as an abstract fetch result; the external
segmentation engines (attacut/deepcut) and trafilatura are modelled as
oracles for their outcomes, since they are third-party libraries outside
the repository.
-/

/-- Characters matched by Python's `\s` for `str` and stripped by
`str.strip()` / split on by `str.split()`: ASCII whitespace, the
file/group/record/unit separators, NEL, NBSP and the Unicode space
characters. -/
def isPySpace (c : Char) : Bool :=
  decide (c.toNat = 32 ∨ c.toNat = 9 ∨ c.toNat = 10 ∨ c.toNat = 11 ∨
    c.toNat = 12 ∨ c.toNat = 13 ∨ (28 ≤ c.toNat ∧ c.toNat ≤ 31) ∨
    c.toNat = 0x85 ∨ c.toNat = 0xa0 ∨ c.toNat = 0x1680 ∨
    (0x2000 ≤ c.toNat ∧ c.toNat ≤ 0x200a) ∨ c.toNat = 0x2028 ∨
    c.toNat = 0x2029 ∨ c.toNat = 0x202f ∨ c.toNat = 0x205f ∨
    c.toNat = 0x3000)

/-- Characters in the character class of `RE_CLEAN = [​-‍﻿]`
(zero-width space/non-joiner/joiner and the byte-order mark). -/
def isZeroWidth (c : Char) : Bool :=
  decide ((0x200b ≤ c.toNat ∧ c.toNat ≤ 0x200d) ∨ c.toNat = 0xfeff)

/-- Characters kept by `RE_KEEP = [^a-zA-Zก-ฮะ-์0-9\.\s]` (the substitution
replaces everything outside this class with a space): ASCII letters, the
Thai ranges U+0E01 to U+0E2E and U+0E30 to U+0E4C, digits, the period and
whitespace. -/
def isKeepChar (c : Char) : Bool :=
  decide ((97 ≤ c.toNat ∧ c.toNat ≤ 122) ∨ (65 ≤ c.toNat ∧ c.toNat ≤ 90) ∨
    (0xe01 ≤ c.toNat ∧ c.toNat ≤ 0xe2e) ∨
    (0xe30 ≤ c.toNat ∧ c.toNat ≤ 0xe4c) ∨
    (48 ≤ c.toNat ∧ c.toNat ≤ 57) ∨ c.toNat = 46) || isPySpace c

/-- Line boundaries recognised by Python's `str.splitlines()`. -/
def isLineBreak (c : Char) : Bool :=
  decide (c.toNat = 10 ∨ c.toNat = 13 ∨ c.toNat = 11 ∨ c.toNat = 12 ∨
    c.toNat = 28 ∨ c.toNat = 29 ∨ c.toNat = 30 ∨ c.toNat = 0x85 ∨
    c.toNat = 0x2028 ∨ c.toNat = 0x2029)

/-- Model of `re.sub(r"[​-‍﻿]", "", text)`: delete the
zero-width characters. -/
def rmZeroWidth (l : List Char) : List Char :=
  l.filter (fun c => !isZeroWidth c)

/-- Model of `RE_KEEP.sub(" ", text)`: replace every character outside the
keep class with a single space. -/
def keepSub (l : List Char) : List Char :=
  l.map (fun c => if isKeepChar c then c else ' ')

/-- Model of the Python stdlib `html.unescape` restricted to the named
entity `amp;`.  The full stdlib resolves the whole HTML5 entity table with
longest-prefix fallback; only the ampersand entity is relevant to the
strings this development evaluates, and on ampersand-free text the two
functions agree (both are the identity). -/
def unescape : List Char → List Char
  | [] => []
  | '&' :: 'a' :: 'm' :: 'p' :: ';' :: rest => '&' :: unescape rest
  | c :: rest => c :: unescape rest

/-- Model of `re.sub(r"\s+", " ", text)`: every maximal run of whitespace
becomes one space.  Implemented as a right fold: a whitespace character
merges into an already collapsed space to its right. -/
def subWs : List Char → List Char
  | [] => []
  | c :: rest =>
    if isPySpace c then
      if (subWs rest).head? = some ' ' then subWs rest
      else ' ' :: subWs rest
    else c :: subWs rest

/-- Trailing-whitespace removal, the right half of Python `str.strip()`. -/
def dropTrailWs : List Char → List Char
  | [] => []
  | c :: rest =>
    match dropTrailWs rest with
    | [] => if isPySpace c then [] else [c]
    | r => c :: r

/-- Model of Python `str.strip()` with no argument: remove whitespace from
both ends. -/
def pystrip (l : List Char) : List Char :=
  dropTrailWs (l.dropWhile isPySpace)

/-- Model of Python `str.split()` with no argument: split on whitespace
runs, dropping empty pieces. -/
def pysplit : List Char → List (List Char)
  | [] => []
  | c :: rest =>
    if isPySpace c then pysplit rest
    else
      match rest.head? with
      | some d =>
        if isPySpace d then [c] :: pysplit rest
        else
          match pysplit rest with
          | [] => [[c]]
          | w :: ws => (c :: w) :: ws
      | none => [[c]]

/-- String wrapper for `pysplit`, the model of `text.split()`. -/
def pysplitStr (s : String) : List String :=
  (pysplit s.data).map String.mk

/-- Model of Python `str.splitlines()`: each line boundary ends a line,
`\r\n` counts as a single boundary, a trailing boundary does not produce an
extra empty line, and the empty string has no lines. -/
def pysplitlines : List Char → List (List Char)
  | [] => []
  | '\r' :: '\n' :: rest => [] :: pysplitlines rest
  | c :: rest =>
    if isLineBreak c then [] :: pysplitlines rest
    else
      match pysplitlines rest with
      | [] => [[c]]
      | l :: ls => (c :: l) :: ls

/-- Model of `"\n".join(lines)` on character lists. -/
def joinNL : List (List Char) → List Char
  | [] => []
  | [l] => l
  | l :: l2 :: rest => l ++ '\n' :: joinNL (l2 :: rest)

/-- Whether `pat` is a leading segment of `l` (helper for the substring
test). -/
def leadMatch : List Char → List Char → Bool
  | [], _ => true
  | _ :: _, [] => false
  | a :: as, b :: bs => a == b && leadMatch as bs

/-- Model of the Python substring test `needle in hay`. -/
def subMatch (needle : List Char) : List Char → Bool
  | [] => leadMatch needle []
  | c :: t => leadMatch needle (c :: t) || subMatch needle t

/-- The `JUNK_KEYWORDS` set of the universal variant.  It is a Python set
iterated with `any`, so its order is irrelevant. -/
def JUNK_KEYWORDS : List String :=
  ["หวย", "ดวง", "โฆษณา", "อ่านต่อ", "คลิก", "หน้าแรก", "เมนู", "Login"]

/-- Model of `any(j in ln for j in JUNK_KEYWORDS)`. -/
def hasJunk (l : List Char) : Bool :=
  JUNK_KEYWORDS.any (fun j => subMatch j.data l)

/-- One iteration of the line loop in the universal `clean_text_final`:
strip the line, drop it when it is shorter than 40 characters and contains
a junk keyword, drop it when it is empty, keep the stripped line
otherwise. -/
def keepLine (ln : List Char) : Option (List Char) :=
  let l := pystrip ln
  if decide (l.length < 40) && hasJunk l then none
  else if l.isEmpty then none else some l

/-- The line-filtering step of the universal `clean_text_final`: split into
lines and run `keepLine` over them. -/
def filterLines (text : String) : List (List Char) :=
  (pysplitlines text.data).filterMap keepLine

/-- The universal variant's `clean_text_final`: junk-line filtering, then
`html.unescape`, zero-width removal, the keep-class substitution, and
whitespace collapsing with a final strip. -/
def clean_text_final_univ (text : String) : String :=
  if text = "" then ""
  else
    String.mk (pystrip (subWs (keepSub (rmZeroWidth (unescape
      (joinNL (filterLines text)))))))

/-- The simpler variant's `clean_text_final`: zero-width removal, then
`html.unescape`, then whitespace collapsing with a final strip. -/
def clean_text_final_simple (text : String) : String :=
  if text = "" then ""
  else String.mk (pystrip (subWs (unescape (rmZeroWidth text.data))))

/-- No two adjacent characters of the list are both the space character
(used to state the collapsed-whitespace invariant). -/
def noTwoSp : List Char → Bool
  | c :: d :: rest => !(c == ' ' && d == ' ') && noTwoSp (d :: rest)
  | _ => true

/-- The last character of a list, if any. -/
def lastCh : List Char → Option Char
  | [] => none
  | [c] => some c
  | _ :: c :: rest => lastCh (c :: rest)

/-- Characters that may appear in the output of the universal
`clean_text_final`: a kept non-whitespace character (ASCII letter, Thai
letter in the two kept ranges, digit, period) or a single space. -/
def finalOK (c : Char) : Bool :=
  (isKeepChar c && !isPySpace c) || c == ' '

/-- The line-filtering rule as the spec sentence states it: drop exactly
those stripped lines that are under 40 characters and contain a junk
keyword, keep every other stripped line. -/
def filterLinesSpec (text : String) : List (List Char) :=
  ((pysplitlines text.data).map pystrip).filter
    (fun l => !(decide (l.length < 40) && hasJunk l))

/-- Outcome of one call into an external segmentation engine: either the
token list it returns, or an exception. -/
inductive EngineOutcome where
  | ok (toks : List String)
  | fail
deriving DecidableEq

/-- The universal variant's `tokenize_text`, with the deepcut availability
flag and the outcomes of the first engine call and of the retry after the
clear-session-and-reload recovery passed in as oracles. -/
def tokenize_text_univ (deepcutAvailable : Bool)
    (firstTry retryAfterReset : EngineOutcome) (text : String) : List String :=
  if !deepcutAvailable || text == "" then
    if text == "" then [] else pysplitStr text
  else
    match firstTry with
    | .ok toks => toks
    | .fail =>
      match retryAfterReset with
      | .ok toks => toks
      | .fail => pysplitStr text

/-!
The HTML document model shared by both extractors: a document is a forest
of element and text nodes, mirroring the BeautifulSoup parse tree.
-/

mutual
inductive HNode where
  | text (s : String)
  | elem (tag : String) (attrs : List (String × String)) (children : HForest)
inductive HForest where
  | nil
  | cons (n : HNode) (f : HForest)
end

/-- Build a forest from a list of nodes (for writing concrete documents). -/
def HForest.ofList : List HNode → HForest
  | [] => .nil
  | n :: ns => .cons n (HForest.ofList ns)

/-- BeautifulSoup attribute matching for a single-entry attrs dict: the
`class` attribute is multi-valued (whitespace-separated), so a candidate
matches when it equals one of the element's classes; every other attribute
must match exactly. -/
def attrM (k v : String) (attrs : List (String × String)) : Bool :=
  match attrs.lookup k with
  | none => false
  | some s => if k == "class" then ((pysplit s.data).map String.mk).contains v else s == v

/-!
Model of `soup.find(tagList, attrs)` on a node and on a forest: the first
element in document (pre-order) order whose tag is in `tags` and whose
attributes match.
-/

mutual
def findN (tags : List String) (k v : String) : HNode → Option HNode
  | .text _ => none
  | .elem t a cs =>
    if tags.contains t && attrM k v a then some (.elem t a cs)
    else findF tags k v cs
def findF (tags : List String) (k v : String) : HForest → Option HNode
  | .nil => none
  | .cons n f =>
    match findN tags k v n with
    | some m => some m
    | none => findF tags k v f
end

/-!
Model of `for tag in soup(denyList): tag.decompose()`: remove every
element whose tag name is in the deny list, together with its subtree.
-/

mutual
def stripN (deny : List String) : HNode → Option HNode
  | .text s => some (.text s)
  | .elem t a cs =>
    if deny.contains t then none else some (.elem t a (stripF deny cs))
def stripF (deny : List String) : HForest → HForest
  | .nil => .nil
  | .cons n f =>
    match stripN deny n with
    | some m => .cons m (stripF deny f)
    | none => stripF deny f
end

/-!
The character lists of all text nodes of a subtree, in document order.
-/

mutual
def strsN : HNode → List (List Char)
  | .text s => [s.data]
  | .elem _ _ cs => strsF cs
def strsF : HForest → List (List Char)
  | .nil => []
  | .cons n f => strsN n ++ strsF f
end

/-- Model of `node.get_text(separator="\n")`: all contained strings joined
with a newline. -/
def getTextN (n : HNode) : String :=
  String.mk (joinNL (strsN n))

/-- Model of `soup.get_text(separator="\n")` on a whole document. -/
def getTextF (f : HForest) : String :=
  String.mk (joinNL (strsF f))

/-- Model of `node(junkList)` followed by `decompose` inside a matched
Sniper node: `find_all` only searches descendants, so the node itself is
kept and the deny list is applied to its children. -/
def stripInNode (deny : List String) : HNode → HNode
  | .text s => .text s
  | .elem t a cs => .elem t a (stripF deny cs)

/-- Outcome of `requests.get` + `raise_for_status` + parsing: either the
parsed document or a raised exception with its message. -/
inductive FetchResult where
  | ok (doc : HForest)
  | err (msg : String)

/-- Provenance tag of an extraction result.  The universal variant's
string tags "Sniper (Targeted)", "AI (Trafilatura)", "Fallback (Sweep)"
and `f"Error: {e}"` are modelled as constructors, with the exception
message kept on `Error`. -/
inductive Method where
  | Sniper
  | AI
  | Sweep
  | Error (msg : String)
deriving DecidableEq

/-- The ordered Sniper rule list of the universal variant. -/
def targetsU : List (String × String) :=
  [("class", "EntryReaderInner"), ("id", "EntryReader_0"),
   ("class", "article-body"), ("itemprop", "articleBody"),
   ("class", "content-detail"), ("class", "news-detail"),
   ("class", "story-body"), ("role", "main")]

/-- The ordered Sniper rule list of the simpler variant. -/
def targetsS : List (String × String) :=
  [("class", "EntryReaderInner"), ("id", "EntryReader_0"),
   ("class", "article-body"), ("itemprop", "articleBody"),
   ("class", "content-detail"), ("class", "news-detail"),
   ("class", "story-body"), ("class", "article-content"),
   ("role", "main")]

/-- Tag names scanned by the universal variant's `soup.find`. -/
def sniperTagsU : List String := ["div", "article", "section"]

/-- Tag names scanned by the simpler variant's `soup.find`. -/
def sniperTagsS : List String := ["div", "article", "section", "main"]

/-- The list passed to `node(...)` inside the universal Sniper branch.
`find_all` interprets each entry as a tag name, so the two CSS selector
strings match no element. -/
def junkInNodeU : List String := ["script", "style", "div.ads", "div.related"]

/-- The deny list of the universal variant's Sweep tier. -/
def denyU : List String :=
  ["script", "style", "nav", "footer", "header", "aside", "button", "form",
   "iframe"]

/-- The deny list stripped at the top of the simpler variant's extractor. -/
def denyS : List String :=
  ["script", "style", "nav", "footer", "header", "aside", "button", "form",
   "iframe", "noscript"]

/-- The Sniper scan: try the rules in order, returning the node found by
the first rule whose `soup.find` succeeds. -/
def sniperFind (tags : List String) (f : HForest) :
    List (String × String) → Option HNode
  | [] => none
  | (k, v) :: rest =>
    match findF tags k v f with
    | some n => some n
    | none => sniperFind tags f rest

/-- The universal variant's `get_content_universal`.  The fetch outcome and
the trafilatura result (`none` when the library is unavailable or returned
`None`) are passed as oracles; a fetch exception is caught and reported as
an `Error` result with empty text. -/
def get_content_universal (fetched : FetchResult) (traf : Option String) :
    String × Method :=
  match fetched with
  | .err msg => ("", .Error msg)
  | .ok soup =>
    match sniperFind sniperTagsU soup targetsU with
    | some node =>
      (clean_text_final_univ (getTextN (stripInNode junkInNodeU node)), .Sniper)
    | none =>
      match traf with
      | some extracted =>
        if extracted = "" then
          (clean_text_final_univ (getTextF (stripF denyU soup)), .Sweep)
        else (clean_text_final_univ extracted, .AI)
      | none =>
        (clean_text_final_univ (getTextF (stripF denyU soup)), .Sweep)

/-- The simpler variant's `get_content_universal`: strip the deny list from
the whole document first, then the Sniper scan, then the Sweep with the
100-character minimum; it returns a plain string, with the empty string
signalling failure, and a fetch exception is caught and returns "". -/
def get_content_simple (fetched : FetchResult) : String :=
  match fetched with
  | .err _ => ""
  | .ok soup =>
    let s := stripF denyS soup
    match sniperFind sniperTagsS s targetsS with
    | some node => clean_text_final_simple (getTextN node)
    | none =>
      let cleaned := clean_text_final_simple (getTextF s)
      if 100 < cleaned.length then cleaned else ""

/-- The simpler variant's `tokenize_text`: empty input returns the empty
list; otherwise attacut is tried when available, else deepcut when
available, else a whitespace split; any engine exception falls back to the
whitespace split.  `engineCall` is the outcome of whichever engine runs. -/
def tokenize_text_simple (attacutAvailable deepcutAvailable : Bool)
    (engineCall : EngineOutcome) (text : String) : List String :=
  if text == "" then []
  else if attacutAvailable then
    match engineCall with
    | .ok toks => toks
    | .fail => pysplitStr text
  else if deepcutAvailable then
    match engineCall with
    | .ok toks => toks
    | .fail => pysplitStr text
  else pysplitStr text

/-- A concrete article node: a `div` with class `article-body` holding the
text "Hello world". -/
def sampleHelloNode : HNode :=
  .elem "div" [("class", "article-body")] (.cons (.text "Hello world") .nil)

/-- A concrete document whose only node is `sampleHelloNode`. -/
def sampleHelloDoc : HForest := .cons sampleHelloNode .nil

/-- A concrete document whose matched article node has no text at all. -/
def emptyArticleDoc : HForest :=
  .cons (.elem "div" [("class", "article-body")] .nil) .nil

/-- A concrete document with no Sniper match and only a short paragraph. -/
def shortTextDoc : HForest :=
  .cons (.elem "p" [] (.cons (.text "short words") .nil)) .nil

/-- A concrete article node matching a Sniper rule but wrapped inside a
`nav` element, which the simpler variant strips before its Sniper scan. -/
def navWrappedNode : HNode :=
  .elem "div" [("class", "article-body")] (.cons (.text "x") .nil)

/-- A concrete document whose only Sniper-matching node sits inside a
`nav` element. -/
def navWrappedDoc : HForest :=
  .cons (.elem "nav" [] (.cons navWrappedNode .nil)) .nil

/-- A concrete article containing an inline ad block (`div` of class `ads`)
and a `script` element next to the real text. -/
def adLadenDoc : HForest :=
  .cons (.elem "div" [("class", "article-body")] (.cons (.text "Hello")
    (.cons (.elem "div" [("class", "ads")] (.cons (.text "Buy now") .nil))
    (.cons (.elem "script" [] (.cons (.text "var x=1;") .nil)) .nil)))) .nil

/-!
Helper lemmas about the character classes and the whitespace-collapsing
pipeline.
-/

theorem space_isPySpace : isPySpace ' ' = true := by decide

theorem lineBreak_isPySpace {c : Char} (h : isLineBreak c = true) :
    isPySpace c = true := by
  simp only [isLineBreak, decide_eq_true_eq] at h
  simp only [isPySpace, decide_eq_true_eq]
  omega

theorem not_space_of_isPySpace_false {c : Char} (h : isPySpace c = false) :
    c ≠ ' ' := by
  intro hc
  subst hc
  simp [space_isPySpace] at h

theorem noTwoSp_tail {a : Char} {l : List Char}
    (h : noTwoSp (a :: l) = true) : noTwoSp l = true := by
  cases l with
  | nil => rfl
  | cons b t =>
    simp only [noTwoSp, Bool.and_eq_true] at h
    exact h.2

theorem noTwoSp_pair {a b : Char} {l : List Char}
    (h : noTwoSp (a :: b :: l) = true) : (a == ' ' && b == ' ') = false := by
  simp only [noTwoSp, Bool.and_eq_true, Bool.not_eq_true'] at h
  exact h.1

theorem noTwoSp_cons {a : Char} {l : List Char}
    (hl : noTwoSp l = true)
    (hh : ∀ b, l.head? = some b → (a == ' ' && b == ' ') = false) :
    noTwoSp (a :: l) = true := by
  cases l with
  | nil => rfl
  | cons b t =>
    simp only [noTwoSp, Bool.and_eq_true, Bool.not_eq_true']
    exact ⟨hh b rfl, hl⟩

theorem subWs_mem {c : Char} {l : List Char} (h : c ∈ subWs l) :
    c = ' ' ∨ (c ∈ l ∧ isPySpace c = false) := by
  induction l with
  | nil => simp [subWs] at h
  | cons d rest ih =>
    by_cases hw : isPySpace d = true
    · by_cases hh : (subWs rest).head? = some ' '
      · rw [subWs, if_pos hw, if_pos hh] at h
        rcases ih h with h1 | ⟨h1, h2⟩
        · exact Or.inl h1
        · exact Or.inr ⟨List.mem_cons_of_mem d h1, h2⟩
      · rw [subWs, if_pos hw, if_neg hh] at h
        rcases List.mem_cons.mp h with h1 | h1
        · exact Or.inl h1
        · rcases ih h1 with h2 | ⟨h2, h3⟩
          · exact Or.inl h2
          · exact Or.inr ⟨List.mem_cons_of_mem d h2, h3⟩
    · rw [subWs, if_neg hw] at h
      rcases List.mem_cons.mp h with h1 | h1
      · subst h1
        exact Or.inr ⟨List.mem_cons_self c rest, by simpa using hw⟩
      · rcases ih h1 with h2 | ⟨h2, h3⟩
        · exact Or.inl h2
        · exact Or.inr ⟨List.mem_cons_of_mem d h2, h3⟩

theorem subWs_ws_eq_space {c : Char} {l : List Char} (h : c ∈ subWs l)
    (hw : isPySpace c = true) : c = ' ' := by
  rcases subWs_mem h with h1 | ⟨_, h2⟩
  · exact h1
  · rw [hw] at h2
    cases h2

theorem subWs_noTwoSp (l : List Char) : noTwoSp (subWs l) = true := by
  induction l with
  | nil => rfl
  | cons d rest ih =>
    by_cases hw : isPySpace d = true
    · by_cases hh : (subWs rest).head? = some ' '
      · rw [subWs, if_pos hw, if_pos hh]
        exact ih
      · rw [subWs, if_pos hw, if_neg hh]
        refine noTwoSp_cons ih ?_
        intro b hb
        have hbne : b ≠ ' ' := by
          intro hbe
          subst hbe
          exact hh hb
        simp [hbne]
    · rw [subWs, if_neg hw]
      refine noTwoSp_cons ih ?_
      intro b _
      have hdne : d ≠ ' ' := not_space_of_isPySpace_false (by simpa using hw)
      simp [hdne]

theorem subWs_eq_self {l : List Char}
    (hws : ∀ c ∈ l, isPySpace c = true → c = ' ')
    (hnt : noTwoSp l = true) : subWs l = l := by
  induction l with
  | nil => rfl
  | cons d rest ih =>
    have ihr : subWs rest = rest :=
      ih (fun c hc => hws c (List.mem_cons_of_mem d hc)) (noTwoSp_tail hnt)
    by_cases hw : isPySpace d = true
    · have hd : d = ' ' := hws d (List.mem_cons_self d rest) hw
      subst hd
      have hh : ¬((subWs rest).head? = some ' ') := by
        rw [ihr]
        cases rest with
        | nil => simp
        | cons b t =>
          have hp := noTwoSp_pair hnt
          simp only [List.head?_cons, Option.some.injEq]
          intro hb
          subst hb
          simp at hp
      rw [subWs, if_pos hw, if_neg hh, ihr]
    · rw [subWs, if_neg hw, ihr]

theorem dropTrailWs_mem {c : Char} {l : List Char}
    (h : c ∈ dropTrailWs l) : c ∈ l := by
  induction l with
  | nil => simp [dropTrailWs] at h
  | cons a rest ih =>
    rw [dropTrailWs] at h
    cases hdt : dropTrailWs rest with
    | nil =>
      rw [hdt] at h
      by_cases hw : isPySpace a = true
      · rw [if_pos hw] at h
        cases h
      · rw [if_neg hw] at h
        rcases List.mem_singleton.mp h with h1
        subst h1
        exact List.mem_cons_self _ _
    | cons d rs =>
      rw [hdt] at h
      rcases List.mem_cons.mp h with h1 | h1
      · subst h1
        exact List.mem_cons_self _ _
      · exact List.mem_cons_of_mem a (ih (hdt ▸ h1))

theorem dropTrailWs_head {c : Char} {r l : List Char}
    (h : dropTrailWs l = c :: r) : l.head? = some c := by
  induction l generalizing c r with
  | nil => simp [dropTrailWs] at h
  | cons a rest ih =>
    rw [dropTrailWs] at h
    cases hdt : dropTrailWs rest with
    | nil =>
      rw [hdt] at h
      by_cases hw : isPySpace a = true
      · rw [if_pos hw] at h
        cases h
      · rw [if_neg hw] at h
        injection h with h1 _
        subst h1
        rfl
    | cons d rs =>
      rw [hdt] at h
      injection h with h1 _
      subst h1
      rfl

theorem dropTrailWs_last {c : Char} {l : List Char}
    (h : lastCh (dropTrailWs l) = some c) : isPySpace c = false := by
  induction l generalizing c with
  | nil => simp [dropTrailWs, lastCh] at h
  | cons a rest ih =>
    rw [dropTrailWs] at h
    cases hdt : dropTrailWs rest with
    | nil =>
      rw [hdt] at h
      by_cases hw : isPySpace a = true
      · rw [if_pos hw] at h
        simp [lastCh] at h
      · rw [if_neg hw] at h
        simp only [lastCh, Option.some.injEq] at h
        subst h
        simpa using hw
    | cons d rs =>
      rw [hdt] at h
      rw [show lastCh (a :: d :: rs) = lastCh (d :: rs) from rfl] at h
      exact ih (hdt ▸ h)

theorem dropTrailWs_noTwoSp {l : List Char} (h : noTwoSp l = true) :
    noTwoSp (dropTrailWs l) = true := by
  induction l with
  | nil => rfl
  | cons a rest ih =>
    rw [dropTrailWs]
    cases hdt : dropTrailWs rest with
    | nil =>
      by_cases hw : isPySpace a = true
      · rw [if_pos hw]; rfl
      · rw [if_neg hw]; rfl
    | cons d rs =>
      have hrest : rest.head? = some d := dropTrailWs_head hdt
      refine noTwoSp_cons (hdt ▸ ih (noTwoSp_tail h)) ?_
      intro b hb
      simp only [List.head?_cons, Option.some.injEq] at hb
      subst hb
      cases rest with
      | nil => simp [dropTrailWs] at hdt
      | cons e t =>
        simp only [List.head?_cons, Option.some.injEq] at hrest
        subst hrest
        exact noTwoSp_pair h

theorem dropTrailWs_eq_self {l : List Char}
    (h : ∀ c, lastCh l = some c → isPySpace c = false) :
    dropTrailWs l = l := by
  induction l with
  | nil => rfl
  | cons a rest ih =>
    cases rest with
    | nil =>
      have ha : isPySpace a = false := h a rfl
      rw [dropTrailWs, dropTrailWs, if_neg (by simp [ha])]
    | cons b t =>
      have ihr : dropTrailWs (b :: t) = b :: t :=
        ih (fun c hc => h c (by simpa [lastCh] using hc))
      rw [dropTrailWs, ihr]

theorem mem_dropWhileWs {c : Char} {l : List Char}
    (h : c ∈ l.dropWhile isPySpace) : c ∈ l := by
  induction l with
  | nil => simp at h
  | cons a rest ih =>
    rw [List.dropWhile_cons] at h
    by_cases hw : isPySpace a = true
    · rw [if_pos hw] at h
      exact List.mem_cons_of_mem a (ih h)
    · rw [if_neg hw] at h
      exact h

theorem dropWhileWs_head {c : Char} {l : List Char}
    (h : (l.dropWhile isPySpace).head? = some c) : isPySpace c = false := by
  induction l with
  | nil => simp at h
  | cons a rest ih =>
    rw [List.dropWhile_cons] at h
    by_cases hw : isPySpace a = true
    · rw [if_pos hw] at h
      exact ih h
    · rw [if_neg hw] at h
      simp only [List.head?_cons, Option.some.injEq] at h
      subst h
      simpa using hw

theorem dropWhileWs_noTwoSp {l : List Char} (h : noTwoSp l = true) :
    noTwoSp (l.dropWhile isPySpace) = true := by
  induction l with
  | nil => rfl
  | cons a rest ih =>
    rw [List.dropWhile_cons]
    by_cases hw : isPySpace a = true
    · rw [if_pos hw]
      exact ih (noTwoSp_tail h)
    · rw [if_neg hw]
      exact h

theorem dropWhileWs_eq_self {l : List Char}
    (h : ∀ c, l.head? = some c → isPySpace c = false) :
    l.dropWhile isPySpace = l := by
  cases l with
  | nil => rfl
  | cons a rest =>
    rw [List.dropWhile_cons, if_neg (by simp [h a rfl])]

theorem pystrip_mem {c : Char} {l : List Char} (h : c ∈ pystrip l) :
    c ∈ l :=
  mem_dropWhileWs (dropTrailWs_mem h)

theorem pystrip_noTwoSp {l : List Char} (h : noTwoSp l = true) :
    noTwoSp (pystrip l) = true :=
  dropTrailWs_noTwoSp (dropWhileWs_noTwoSp h)

theorem pystrip_head {c : Char} {l : List Char}
    (h : (pystrip l).head? = some c) : isPySpace c = false := by
  rw [pystrip] at h
  cases hdt : dropTrailWs (l.dropWhile isPySpace) with
  | nil => rw [hdt] at h; cases h
  | cons e t =>
    rw [hdt] at h
    simp only [List.head?_cons, Option.some.injEq] at h
    subst h
    exact dropWhileWs_head (dropTrailWs_head hdt)

theorem pystrip_last {c : Char} {l : List Char}
    (h : lastCh (pystrip l) = some c) : isPySpace c = false :=
  dropTrailWs_last h

theorem pystrip_eq_self {l : List Char}
    (hh : ∀ c, l.head? = some c → isPySpace c = false)
    (hl : ∀ c, lastCh l = some c → isPySpace c = false) :
    pystrip l = l := by
  rw [pystrip, dropWhileWs_eq_self hh, dropTrailWs_eq_self hl]
theorem unescape_cons_ne {c : Char} (rest : List Char) (h : c ≠ '&') :
    unescape (c :: rest) = c :: unescape rest := by
  rw [unescape.eq_def]
  split
  · simp_all
  · simp_all
  · next _ c2 r2 _ heq =>
      injection heq with h1 h2
      subst h1
      subst h2
      rfl

theorem pysplitlines_cons_nb {c : Char} (rest : List Char)
    (h : isLineBreak c = false) :
    pysplitlines (c :: rest) =
      match pysplitlines rest with
      | [] => [[c]]
      | l :: ls => (c :: l) :: ls := by
  rw [pysplitlines.eq_def]
  split
  · simp_all
  · next heq =>
      injection heq with h1 h2
      subst h1
      simp [isLineBreak] at h
  · next _ c2 r2 _ heq =>
      injection heq with h1 h2
      subst h1
      subst h2
      rw [if_neg (by simp [h])]

theorem unescape_eq_self {l : List Char} (h : ∀ c ∈ l, c ≠ '&') :
    unescape l = l := by
  induction l with
  | nil => rfl
  | cons c rest ih =>
    rw [unescape_cons_ne rest (h c (List.mem_cons_self _ _)),
      ih (fun d hd => h d (List.mem_cons_of_mem c hd))]

theorem keepSub_mem {c : Char} {l : List Char} (h : c ∈ keepSub l) :
    isKeepChar c = true := by
  rw [keepSub] at h
  rcases List.mem_map.mp h with ⟨a, _, ha⟩
  by_cases hk : isKeepChar a = true
  · rw [if_pos hk] at ha
    subst ha
    exact hk
  · rw [if_neg hk] at ha
    subst ha
    decide

theorem keepSub_eq_self {l : List Char} (h : ∀ c ∈ l, isKeepChar c = true) :
    keepSub l = l := by
  induction l with
  | nil => rfl
  | cons c rest ih =>
    rw [keepSub, List.map_cons, if_pos (h c (List.mem_cons_self _ _))]
    exact congrArg _ (ih (fun d hd => h d (List.mem_cons_of_mem c hd)))

theorem rmZeroWidth_mem {c : Char} {l : List Char} (h : c ∈ rmZeroWidth l) :
    c ∈ l :=
  List.mem_of_mem_filter h

theorem rmZeroWidth_not_zw {c : Char} {l : List Char}
    (h : c ∈ rmZeroWidth l) : isZeroWidth c = false := by
  have := List.of_mem_filter h
  simpa using this

theorem rmZeroWidth_eq_self {l : List Char}
    (h : ∀ c ∈ l, isZeroWidth c = false) : rmZeroWidth l = l :=
  List.filter_eq_self.mpr (fun a ha => by simp [h a ha])

theorem pysplitlines_single {l : List Char} (hne : l ≠ [])
    (hnb : ∀ c ∈ l, isLineBreak c = false) : pysplitlines l = [l] := by
  induction l with
  | nil => cases hne rfl
  | cons c rest ih =>
    rw [pysplitlines_cons_nb rest (hnb c (List.mem_cons_self _ _))]
    cases hr : rest with
    | nil => rfl
    | cons d t =>
      have : pysplitlines rest = [rest] := by
        rw [hr]
        exact hr ▸ ih (by simp [hr]) (fun e he =>
          hnb e (List.mem_cons_of_mem c (hr ▸ he)))
      rw [hr] at this
      rw [this]

theorem pysplit_ne_nil {l : List Char}
    (h : ∃ c ∈ l, isPySpace c = false) : pysplit l ≠ [] := by
  induction l with
  | nil => simp at h
  | cons c rest ih =>
    by_cases hw : isPySpace c = true
    · rw [pysplit, if_pos hw]
      rcases h with ⟨d, hd, hdw⟩
      rcases List.mem_cons.mp hd with h1 | h1
      · subst h1
        rw [hw] at hdw
        cases hdw
      · exact ih ⟨d, h1, hdw⟩
    · rw [pysplit, if_neg hw]
      cases rest.head? with
      | none => simp
      | some d =>
        by_cases hdw : isPySpace d = true
        · simp [hdw]
        · cases hp : pysplit rest <;> simp [hdw, hp]

theorem collapsed_mem {c : Char} {w : List Char}
    (h : c ∈ pystrip (subWs w)) :
    c = ' ' ∨ (c ∈ w ∧ isPySpace c = false) :=
  subWs_mem (pystrip_mem h)

theorem collapsed_ws_space {c : Char} {w : List Char}
    (h : c ∈ pystrip (subWs w)) (hw : isPySpace c = true) : c = ' ' := by
  rcases collapsed_mem h with h1 | ⟨_, h2⟩
  · exact h1
  · rw [hw] at h2
    cases h2

theorem collapsed_idem (w : List Char) :
    pystrip (subWs (pystrip (subWs w))) = pystrip (subWs w) := by
  have hz : subWs (pystrip (subWs w)) = pystrip (subWs w) :=
    subWs_eq_self (fun c hc hw => collapsed_ws_space hc hw)
      (pystrip_noTwoSp (subWs_noTwoSp w))
  rw [hz]
  exact pystrip_eq_self (fun c hc => pystrip_head hc)
    (fun c hc => pystrip_last hc)

theorem finalOK_of_keep_not_ws {c : Char} (hk : isKeepChar c = true)
    (hw : isPySpace c = false) : finalOK c = true := by
  simp [finalOK, hk, hw]

theorem finalOK_keep {c : Char} (h : finalOK c = true) :
    isKeepChar c = true := by
  simp only [finalOK, Bool.or_eq_true, Bool.and_eq_true, beq_iff_eq] at h
  rcases h with ⟨hk, _⟩ | hsp
  · exact hk
  · subst hsp
    decide

theorem finalOK_ws_space {c : Char} (h : finalOK c = true)
    (hw : isPySpace c = true) : c = ' ' := by
  simp only [finalOK, Bool.or_eq_true, Bool.and_eq_true, beq_iff_eq,
    Bool.not_eq_true'] at h
  rcases h with ⟨_, hnw⟩ | hsp
  · rw [hw] at hnw
    cases hnw
  · exact hsp

theorem finalOK_not_amp {c : Char} (h : finalOK c = true) : c ≠ '&' := by
  intro he
  subst he
  simp only [finalOK] at h
  revert h
  decide

theorem finalOK_not_lineBreak {c : Char} (h : finalOK c = true) :
    isLineBreak c = false := by
  by_cases hb : isLineBreak c = true
  · have hw := lineBreak_isPySpace hb
    have hc := finalOK_ws_space h hw
    subst hc
    simp [isLineBreak] at hb
  · simpa using hb

theorem finalOK_not_zw {c : Char} (h : finalOK c = true) :
    isZeroWidth c = false := by
  have hk := finalOK_keep h
  by_cases hz : isZeroWidth c = true
  · exfalso
    simp only [isKeepChar, isPySpace, Bool.or_eq_true, decide_eq_true_eq] at hk
    simp only [isZeroWidth, decide_eq_true_eq] at hz
    omega
  · simpa using hz

theorem clean_univ_canonical (x : String) :
    (∀ c ∈ (clean_text_final_univ x).data, finalOK c = true) ∧
    noTwoSp (clean_text_final_univ x).data = true ∧
    (∀ c, (clean_text_final_univ x).data.head? = some c →
      isPySpace c = false) ∧
    (∀ c, lastCh (clean_text_final_univ x).data = some c →
      isPySpace c = false) := by
  by_cases hx : x = ""
  · subst hx
    refine ⟨?_, ?_, ?_, ?_⟩ <;> simp [clean_text_final_univ, lastCh, noTwoSp]
  · rw [clean_text_final_univ, if_neg hx]
    refine ⟨?_, ?_, ?_, ?_⟩
    · intro c hc
      rcases collapsed_mem hc with h1 | ⟨h1, h2⟩
      · subst h1
        decide
      · exact finalOK_of_keep_not_ws (keepSub_mem h1) h2
    · exact pystrip_noTwoSp (subWs_noTwoSp _)
    · intro c hc
      exact pystrip_head hc
    · intro c hc
      exact pystrip_last hc

theorem clean_univ_fix {y : String} (hne : y ≠ "")
    (hOK : ∀ c ∈ y.data, finalOK c = true)
    (hnt : noTwoSp y.data = true)
    (hh : ∀ c, y.data.head? = some c → isPySpace c = false)
    (hl : ∀ c, lastCh y.data = some c → isPySpace c = false)
    (hjunk : ¬(y.data.length < 40 ∧ hasJunk y.data = true)) :
    clean_text_final_univ y = y := by
  have hdne : y.data ≠ [] := by
    intro h0
    apply hne
    cases y with
    | mk d =>
      simp only at h0
      rw [h0]
  have hstrip : pystrip y.data = y.data := pystrip_eq_self hh hl
  have hcond : (decide (y.data.length < 40) && hasJunk y.data) = false := by
    by_cases h40 : y.data.length < 40
    · by_cases hj : hasJunk y.data = true
      · exact absurd ⟨h40, hj⟩ hjunk
      · rw [Bool.not_eq_true] at hj
        rw [hj, Bool.and_false]
    · rw [decide_eq_false h40, Bool.false_and]
  have hkeep : keepLine y.data = some y.data := by
    rw [keepLine]
    simp only [hstrip, hcond, Bool.false_eq_true, if_false]
    have hemp : y.data.isEmpty = false := by
      cases hd : y.data with
      | nil => exact absurd hd hdne
      | cons a t => rfl
    simp [hemp]
  have hlines : filterLines y = [y.data] := by
    rw [filterLines,
      pysplitlines_single hdne (fun c hc => finalOK_not_lineBreak (hOK c hc))]
    simp [List.filterMap, hkeep]
  rw [clean_text_final_univ, if_neg hne, hlines]
  have hjoin : joinNL [y.data] = y.data := rfl
  rw [hjoin, unescape_eq_self (fun c hc => finalOK_not_amp (hOK c hc)),
    rmZeroWidth_eq_self (fun c hc => finalOK_not_zw (hOK c hc)),
    keepSub_eq_self (fun c hc => finalOK_keep (hOK c hc)),
    subWs_eq_self (fun c hc hw => finalOK_ws_space (hOK c hc) hw) hnt,
    pystrip_eq_self hh hl]

theorem clean_simple_idem_of_noamp {x : String}
    (hAmp : ∀ c ∈ x.data, c ≠ '&') :
    clean_text_final_simple (clean_text_final_simple x) =
      clean_text_final_simple x := by
  by_cases hx : x = ""
  · subst hx
    rfl
  · have hxv : clean_text_final_simple x =
        String.mk (pystrip (subWs (rmZeroWidth x.data))) := by
      rw [clean_text_final_simple, if_neg hx,
        unescape_eq_self (fun c hc => hAmp c (rmZeroWidth_mem hc))]
    rw [hxv]
    by_cases hz : pystrip (subWs (rmZeroWidth x.data)) = []
    · rw [hz]
      decide
    · have hzne : String.mk (pystrip (subWs (rmZeroWidth x.data))) ≠ "" := by
        intro h0
        exact hz (congrArg String.data h0)
      rw [clean_text_final_simple, if_neg hzne]
      show String.mk (pystrip (subWs (unescape (rmZeroWidth
        (pystrip (subWs (rmZeroWidth x.data))))))) = _
      rw [rmZeroWidth_eq_self (fun c hc => by
        rcases collapsed_mem hc with h1 | ⟨h1, _⟩
        · subst h1
          decide
        · exact rmZeroWidth_not_zw h1)]
      rw [unescape_eq_self (fun c hc => by
        rcases collapsed_mem hc with h1 | ⟨h1, _⟩
        · subst h1
          decide
        · exact hAmp c (rmZeroWidth_mem h1))]
      rw [collapsed_idem]

theorem sniperFind_first {tags : List String} {f : HForest} :
    ∀ (rules : List (String × String)) (i : Nat) (hi : i < rules.length)
      (n : HNode),
      (∀ r ∈ rules.take i, (findF tags r.1 r.2 f).isNone = true) →
      findF tags (rules.get ⟨i, hi⟩).1 (rules.get ⟨i, hi⟩).2 f = some n →
      sniperFind tags f rules = some n := by
  intro rules
  induction rules with
  | nil =>
    intro i hi
    exact absurd hi (by simp)
  | cons r rest ih =>
    intro i hi n hmiss hfind
    obtain ⟨k, v⟩ := r
    cases i with
    | zero =>
      simp only [List.get] at hfind
      rw [sniperFind, hfind]
    | succ j =>
      have hmiss0 : (findF tags k v f).isNone = true :=
        hmiss (k, v) (by simp [List.take_succ_cons])
      have hnone : findF tags k v f = none :=
        Option.isNone_iff_eq_none.mp hmiss0
      rw [sniperFind, hnone]
      refine ih j (by simpa using hi) n ?_ (by simpa using hfind)
      intro s hs
      exact hmiss s (by simp [List.take_succ_cons, hs])

theorem pysplitStr_ne_nil {s : String}
    (h : ∃ c ∈ s.data, isPySpace c = false) : pysplitStr s ≠ [] := by
  rw [pysplitStr]
  intro h0
  exact pysplit_ne_nil h (List.map_eq_nil_iff.mp h0)

/-!
Theorems for the claims.
-/

/-- C1 counterexample: the claim as stated is false of the simpler
variant.  In `navWrappedDoc` a div of class article-body matches a Sniper
rule, yet the simpler extractor decomposes the deny-list tags (here the
enclosing `nav`, and the matching node with it) before its Sniper scan, so
it falls through to the Sweep tier and returns "" instead of the non-empty
Sniper text "x" of the matching node. -/
theorem C1_counterexample :
    (findF sniperTagsS "class" "article-body" navWrappedDoc).isSome
      = true ∧
    get_content_simple (.ok navWrappedDoc) = "" ∧
    clean_text_final_simple (getTextN navWrappedNode) = "x" := by
  refine ⟨by decide, by decide, by decide⟩

/-- C1 amended: in the universal variant, for every HTML document in which
some node of tag div/article/section matches one of the ordered Sniper
rules, extract returns with method `Method.Sniper` and never reaches the
AI or Sweep tier, the rule list is scanned in its stated order, and the
text is the cleaned text of the node found by the first matching rule.
The simpler variant scans only after stripping its deny list
(script/style/nav/footer/header/aside/button/form/iframe/noscript) from
the whole document, so its first-match-wins Sniper guarantee holds for
nodes of the stripped document: when a rule matches there, it returns the
cleaned Sniper text of the first matching rule instead of ever running its
Sweep tier; a matching node inside a stripped tag is not found. -/
theorem C1_sniper_first_match_wins :
    (∀ (doc : HForest) (traf : Option String) (i : Nat)
       (hi : i < targetsU.length) (n : HNode),
       (∀ r ∈ targetsU.take i,
         (findF sniperTagsU r.1 r.2 doc).isNone = true) →
       findF sniperTagsU (targetsU.get ⟨i, hi⟩).1 (targetsU.get ⟨i, hi⟩).2
         doc = some n →
       get_content_universal (.ok doc) traf =
         (clean_text_final_univ (getTextN (stripInNode junkInNodeU n)),
          Method.Sniper)) ∧
    (∀ (doc : HForest) (i : Nat) (hi : i < targetsS.length) (n : HNode),
       (∀ r ∈ targetsS.take i,
         (findF sniperTagsS r.1 r.2 (stripF denyS doc)).isNone = true) →
       findF sniperTagsS (targetsS.get ⟨i, hi⟩).1 (targetsS.get ⟨i, hi⟩).2
         (stripF denyS doc) = some n →
       get_content_simple (.ok doc) =
         clean_text_final_simple (getTextN n)) := by
  constructor
  · intro doc traf i hi n hmiss hfind
    have hs := sniperFind_first targetsU i hi n hmiss hfind
    simp [get_content_universal, hs]
  · intro doc i hi n hmiss hfind
    have hs := sniperFind_first targetsS i hi n hmiss hfind
    simp [get_content_simple, hs]

/-- Witness for C1: in `sampleHelloDoc` the third rule (class
article-body) is the first one to match, and both extractors return its
Sniper text. -/
theorem C1_witness :
    get_content_universal (.ok sampleHelloDoc) none =
      (clean_text_final_univ
        (getTextN (stripInNode junkInNodeU sampleHelloNode)),
       Method.Sniper) ∧
    get_content_simple (.ok sampleHelloDoc) =
      clean_text_final_simple (getTextN sampleHelloNode) :=
  ⟨C1_sniper_first_match_wins.1 sampleHelloDoc none 2 (by decide)
    sampleHelloNode (by decide) rfl,
   C1_sniper_first_match_wins.2 sampleHelloDoc 2 (by decide)
    sampleHelloNode (by decide) rfl⟩

/-- C2 counterexample: a document whose matched article node holds no text
yields the pair ("", Sniper): the text is empty although the method is
Sniper, not a failure tag, so "text is empty iff method indicates failure"
is false on the code. -/
theorem C2_counterexample :
    get_content_universal (.ok emptyArticleDoc) none = ("", Method.Sniper) := by
  decide

/-- C2 amended: the text is empty whenever the method is Error; a result
tagged Sniper, AI or Sweep may also carry empty text (when the cleaned
content is empty), so emptiness is necessary but not equivalent to
failure. -/
theorem C2_amended_error_empty :
    ∀ (fetched : FetchResult) (traf : Option String) (msg : String),
      (get_content_universal fetched traf).2 = Method.Error msg →
      (get_content_universal fetched traf).1 = "" := by
  intro fetched traf msg h
  cases fetched with
  | err m => rfl
  | ok doc =>
    exfalso
    cases hs : sniperFind sniperTagsU doc targetsU with
    | some n => simp [get_content_universal, hs] at h
    | none =>
      cases traf with
      | none => simp [get_content_universal, hs] at h
      | some e =>
        by_cases he : e = ""
        · simp [get_content_universal, hs, he] at h
        · simp [get_content_universal, hs, he] at h

/-- Witness for the amended C2 at a concrete failing fetch. -/
theorem C2_witness :
    (get_content_universal (.err "boom") none).1 = "" :=
  C2_amended_error_empty (.err "boom") none "boom" rfl

/-- C3: whenever the fetch or parse raises, both extractors catch the
exception at their boundary: the universal variant returns empty text
tagged with the Error method carrying the message, the simpler variant
returns the empty string; the embedded extractors are total functions, so
no exception propagates. -/
theorem C3_errors_caught :
    ∀ (msg : String) (traf : Option String),
      get_content_universal (.err msg) traf = ("", Method.Error msg) ∧
      get_content_simple (.err msg) = "" :=
  fun _ _ => ⟨rfl, rfl⟩

/-- C4 counterexample: in the universal variant the Sweep tier applies no
minimum-length check: on a document with no Sniper match and no
trafilatura result, a cleaned sweep text of length 11 (at most 100) is
still returned as non-empty text with method Sweep, not turned into empty
text. -/
theorem C4_counterexample :
    get_content_universal (.ok shortTextDoc) none =
      ("short words", Method.Sweep) ∧
    ("short words" : String).length ≤ 100 ∧
    ("short words" : String) ≠ "" := by
  refine ⟨by decide, by decide, by decide⟩

/-- C4 amended: the 100-character minimum exists only in the simpler
variant: when its Sniper scan finds nothing and the cleaned sweep text has
length at most 100 the simpler extractor returns the empty string, while
the universal variant returns the cleaned sweep text with method Sweep
regardless of its length. -/
theorem C4_amended_min_length :
    ∀ (doc : HForest),
      (sniperFind sniperTagsS (stripF denyS doc) targetsS = none →
        (clean_text_final_simple (getTextF (stripF denyS doc))).length ≤ 100 →
        get_content_simple (.ok doc) = "") ∧
      (sniperFind sniperTagsU doc targetsU = none →
        get_content_universal (.ok doc) none =
          (clean_text_final_univ (getTextF (stripF denyU doc)),
           Method.Sweep)) := by
  intro doc
  constructor
  · intro hs hlen
    simp only [get_content_simple, hs]
    rw [if_neg (by omega)]
  · intro hs
    simp [get_content_universal, hs]

/-- Witness for the amended C4 at a concrete short document. -/
theorem C4_witness :
    get_content_simple (.ok shortTextDoc) = "" ∧
    get_content_universal (.ok shortTextDoc) none =
      (clean_text_final_univ (getTextF (stripF denyU shortTextDoc)),
       Method.Sweep) :=
  ⟨(C4_amended_min_length shortTextDoc).1 rfl (by decide),
   (C4_amended_min_length shortTextDoc).2 rfl⟩

set_option maxRecDepth 100000

/-- C5 counterexample: neither variant's `clean_text_final` is idempotent.
In the simpler variant `html.unescape` re-resolves the doubly escaped
entity: "&amp;amp;" cleans to "&amp;" and a second pass turns it into "&".
In the universal variant a long line that collapses to the short junk line
"Login a" survives the first pass but is dropped by the junk-line filter of
the second pass. -/
theorem C5_counterexample :
    clean_text_final_simple (clean_text_final_simple "&amp;amp;") ≠
      clean_text_final_simple "&amp;amp;" ∧
    clean_text_final_univ (clean_text_final_univ
        ("Login" ++ String.mk (List.replicate 40 ' ') ++ "a")) ≠
      clean_text_final_univ
        ("Login" ++ String.mk (List.replicate 40 ' ') ++ "a") := by
  constructor <;> decide

/-- C5 amended: `clean_text_final` is idempotent on every input without an
ampersand in the simpler variant, and in the universal variant on every
input whose cleaned output is not itself dropped by the junk-line filter
(that is, the output is not shorter than 40 characters while containing a
junk keyword). -/
theorem C5_amended_idempotent :
    ∀ (x y : String),
      (∀ c ∈ x.data, c ≠ '&') →
      ¬((clean_text_final_univ y).length < 40 ∧
        hasJunk (clean_text_final_univ y).data = true) →
      clean_text_final_simple (clean_text_final_simple x) =
        clean_text_final_simple x ∧
      clean_text_final_univ (clean_text_final_univ y) =
        clean_text_final_univ y := by
  intro x y hx hy
  refine ⟨clean_simple_idem_of_noamp hx, ?_⟩
  by_cases hne : clean_text_final_univ y = ""
  · rw [hne]
    rfl
  · obtain ⟨hOK, hnt, hh, hl⟩ := clean_univ_canonical y
    exact clean_univ_fix hne hOK hnt hh hl hy

/-- Witness for the amended C5 at concrete inputs. -/
theorem C5_witness :
    clean_text_final_simple (clean_text_final_simple "ab") =
      clean_text_final_simple "ab" ∧
    clean_text_final_univ (clean_text_final_univ "cd") =
      clean_text_final_univ "cd" :=
  C5_amended_idempotent "ab" "cd" (by decide) (by decide)

/-- C6 counterexample: the string " " is a non-empty input, yet when the
engine fails twice the whitespace-split fallback returns the empty
sequence, so the fallback result is not always non-empty for non-empty
input. -/
theorem C6_counterexample :
    tokenize_text_univ true .fail .fail " " = [] ∧ (" " : String) ≠ "" := by
  constructor <;> decide

/-- C6 amended: when the engine throws on the first call and again after
the reset-and-retry, the adapter falls back to the naive whitespace split;
the result is non-null (the adapter is a total function into lists) and
non-empty for every input containing at least one non-whitespace
character, while a non-empty all-whitespace input yields the empty
sequence. -/
theorem C6_amended_fallback :
    ∀ (text : String),
      (∃ c ∈ text.data, isPySpace c = false) →
      tokenize_text_univ true .fail .fail text = pysplitStr text ∧
      tokenize_text_univ true .fail .fail text ≠ [] := by
  intro text h
  have hne : text ≠ "" := by
    rintro rfl
    simp at h
  have hb : (text == "") = false := by
    rw [beq_eq_false_iff_ne]
    exact hne
  have heq : tokenize_text_univ true .fail .fail text = pysplitStr text := by
    simp [tokenize_text_univ, hb]
  exact ⟨heq, heq ▸ pysplitStr_ne_nil h⟩

/-- Witness for the amended C6 at a concrete input. -/
theorem C6_witness :
    tokenize_text_univ true .fail .fail "abc" = pysplitStr "abc" ∧
    tokenize_text_univ true .fail .fail "abc" ≠ [] :=
  C6_amended_fallback "abc" (by decide)

/-- C7: tokenize applied to the empty string returns the empty sequence
under every engine configuration of both variants and, being a total
function into lists, never returns null or raises. -/
theorem C7_tokenize_empty :
    ∀ (a d : Bool) (e1 e2 e3 : EngineOutcome),
      tokenize_text_univ a e1 e2 "" = [] ∧
      tokenize_text_simple a d e3 "" = [] := by
  intro a d e1 e2 e3
  constructor
  · simp [tokenize_text_univ]
  · simp [tokenize_text_simple]

/-- C8: inside the matched Sniper subtree the universal extractor passes
the CSS selector strings "div.ads" and "div.related" to `find_all` as tag
names, which match no element, so ad and related-content sub-nodes are not
removed: the ad text "Buy now" survives into the Sniper result, while the
`script` sub-node (a genuine tag name) is removed.  This contradicts the
code's own comment about removing inline ads and the documented intent, so
the code, not the claim, is wrong. -/
theorem C8_ad_not_removed :
    get_content_universal (.ok adLadenDoc) none =
      ("Hello Buy now", Method.Sniper) ∧
    subMatch "Buy now".data ("Hello Buy now" : String).data = true := by
  constructor <;> decide

theorem keepLine_eq (ln : List Char) :
    keepLine ln =
      if (!(pystrip ln).isEmpty &&
          !(decide ((pystrip ln).length < 40) && hasJunk (pystrip ln))) = true
      then some (pystrip ln) else none := by
  rw [keepLine]
  by_cases h1 :
      (decide ((pystrip ln).length < 40) && hasJunk (pystrip ln)) = true
  · simp [h1]
  · rw [Bool.not_eq_true] at h1
    by_cases h2 : (pystrip ln).isEmpty = true
    · simp [h1, h2]
    · rw [Bool.not_eq_true] at h2
      simp [h1, h2]

/-- C9 counterexample: on the input "a\n \nb" the middle line strips to the
empty line, which is under 40 characters and contains no junk keyword, so
under the claimed rule it survives; the code additionally drops empty
stripped lines, so it does not. -/
theorem C9_counterexample :
    filterLines "a\n \nb" = ["a".data, "b".data] ∧
    filterLinesSpec "a\n \nb" = ["a".data, "".data, "b".data] := by
  constructor <;> decide

/-- C9 amended: with junk filtering enabled the surviving lines are exactly
the stripped lines that are non-empty and not both under 40 characters and
containing a junk keyword; every other stripped line survives the
line-filtering step. -/
theorem C9_amended_filter :
    ∀ (text : String),
      filterLines text =
        ((pysplitlines text.data).map pystrip).filter
          (fun l => !l.isEmpty &&
            !(decide (l.length < 40) && hasJunk l)) := by
  intro text
  rw [filterLines]
  induction pysplitlines text.data with
  | nil => rfl
  | cons ln rest ih =>
    rw [List.filterMap_cons, List.map_cons, List.filter_cons, keepLine_eq,
      ih]
    by_cases hb :
        (!(pystrip ln).isEmpty &&
          !(decide ((pystrip ln).length < 40) && hasJunk (pystrip ln)))
          = true
    · rw [if_pos hb, if_pos hb]
    · rw [if_neg (by simpa using hb), if_neg (by simpa using hb)]

/-- C10: for every input string, the output of the universal variant's
clean_text_final consists only of kept non-whitespace characters (ASCII
letters, Thai letters of the kept ranges, digits, periods) and single
spaces; it has no two consecutive whitespace characters, does not start or
end with a space (it is trimmed), and contains no newline.  In particular
it is either empty or such a trimmed single-line string. -/
theorem C10_clean_univ_invariant :
    ∀ (x : String),
      (∀ c ∈ (clean_text_final_univ x).data, finalOK c = true) ∧
      noTwoSp (clean_text_final_univ x).data = true ∧
      (clean_text_final_univ x).data.head? ≠ some ' ' ∧
      lastCh (clean_text_final_univ x).data ≠ some ' ' ∧
      '\n' ∉ (clean_text_final_univ x).data := by
  intro x
  obtain ⟨hOK, hnt, hh, hl⟩ := clean_univ_canonical x
  refine ⟨hOK, hnt, ?_, ?_, ?_⟩
  · intro h
    exact absurd (hh ' ' h) (by decide)
  · intro h
    exact absurd (hl ' ' h) (by decide)
  · intro hmem
    exact absurd (hOK '\n' hmem) (by decide)
